import Mathlib

/-!
The greeting reader and the vote encoder of votifier-tester.

A shallow embedding of `ReadVersion` and `VotifierMessage.Write` from `main.go`.

Go strings and byte slices are lists of bytes; a byte is a natural number below 256.
Go `error` values are the constructors of `GoError`.  The parts of the Go standard
library the two functions call (UTF-8 decoding, `strings.Split`, `strings.Join`,
`strings.TrimSpace`, the length check of `rsa.EncryptPKCS1v15`) are transcribed from
the library sources.
-/

namespace Votifier

/-- A Go string or byte slice: its bytes in order. -/
abbrev Bytes := List Nat

/-- The bytes of an ASCII literal. -/
def ascii (s : String) : Bytes := s.toList.map Char.toNat

/-- Go error values that the two functions can return. -/
inductive GoError where
  /-- The value `io.EOF`. -/
  | EOF
  /-- Any other error of the underlying stream, identified by a number. -/
  | stream (code : Nat)
  /-- An error made by `fmt.Errorf`, with its formatted message. -/
  | errorf (msg : Bytes)
  /-- The value `rsa.ErrMessageTooLong`. -/
  | messageTooLong
  /-- The public exponent is below 2. -/
  | publicExponentSmall
  /-- The public exponent is above `1<<31 - 1`. -/
  | publicExponentLarge
  /-- Any other failure inside the encryption (the random source). -/
  | crypto (code : Nat)
  deriving DecidableEq, Repr

/-! ## UTF-8 decoding (`unicode/utf8`) -/

/-- The value `utf8.RuneError`. -/
def RuneError : Nat := 0xFFFD

/-- The value `utf8.RuneSelf`: bytes below it are single-byte runes. -/
def RuneSelf : Nat := 0x80

/-- The table `first` of `unicode/utf8` together with `acceptRanges`, for a lead byte:
`none` for an invalid lead byte (`xx`), otherwise the sequence length and the accepted
range of the second byte. -/
def leadInfo (p0 : Nat) : Option (Nat × Nat × Nat) :=
  if p0 < 0xC2 then none
  else if p0 < 0xE0 then some (2, 0x80, 0xBF)
  else if p0 = 0xE0 then some (3, 0xA0, 0xBF)
  else if p0 < 0xED then some (3, 0x80, 0xBF)
  else if p0 = 0xED then some (3, 0x80, 0x9F)
  else if p0 < 0xF0 then some (3, 0x80, 0xBF)
  else if p0 = 0xF0 then some (4, 0x90, 0xBF)
  else if p0 < 0xF4 then some (4, 0x80, 0xBF)
  else if p0 = 0xF4 then some (4, 0x80, 0x8F)
  else none

/-- Whether `b` is a continuation byte (`locb <= b <= hicb`). -/
def isCont (b : Nat) : Bool := 0x80 ≤ b && b ≤ 0xBF

/-- The function `utf8.DecodeRune`: the first rune of `p` and its width in bytes.
An empty input gives `(RuneError, 0)`, an invalid encoding `(RuneError, 1)`. -/
def DecodeRune (p : Bytes) : Nat × Nat :=
  match p with
  | [] => (RuneError, 0)
  | p0 :: rest =>
    if p0 < RuneSelf then (p0, 1)
    else
      match leadInfo p0 with
      | none => (RuneError, 1)
      | some (sz, lo, hi) =>
        if rest.length + 1 < sz then (RuneError, 1)
        else
          match rest with
          | [] => (RuneError, 1)
          | b1 :: rest1 =>
            if b1 < lo || hi < b1 then (RuneError, 1)
            else if sz ≤ 2 then ((p0 &&& 0x1F) <<< 6 ||| (b1 &&& 0x3F), 2)
            else
              match rest1 with
              | [] => (RuneError, 1)
              | b2 :: rest2 =>
                if !isCont b2 then (RuneError, 1)
                else if sz ≤ 3 then
                  ((p0 &&& 0x0F) <<< 12 ||| (b1 &&& 0x3F) <<< 6 ||| (b2 &&& 0x3F), 3)
                else
                  match rest2 with
                  | [] => (RuneError, 1)
                  | b3 :: _ =>
                    if !isCont b3 then (RuneError, 1)
                    else ((p0 &&& 0x07) <<< 18 ||| (b1 &&& 0x3F) <<< 12
                            ||| (b2 &&& 0x3F) <<< 6 ||| (b3 &&& 0x3F), 4)

/-- The loop of the conversion `[]rune(string(b))`: decode rune after rune.  Every step
consumes at least one byte, so `fuel = len(b)` steps are enough. -/
def runesLoop : Nat → Bytes → List Nat
  | 0, _ => []
  | _, [] => []
  | fuel + 1, p0 :: rest =>
    let (r, size) := DecodeRune (p0 :: rest)
    r :: runesLoop fuel ((p0 :: rest).drop size)

/-- The conversion `[]rune(string(b))`. -/
def runes (b : Bytes) : List Nat := runesLoop b.length b

/-- The function `utf8.RuneStart`: `b` is not a continuation byte. -/
def RuneStart (b : Nat) : Bool := b &&& 0xC0 != 0x80

/-- The backward scan of `utf8.DecodeLastRune` for the start of the last rune: from
`start` down to `lim`, stopping at the first byte that can start a rune. -/
def lastRuneStartLoop (p : Bytes) (lim : Int) : Nat → Int → Int
  | 0, start => start
  | fuel + 1, start =>
    if lim ≤ start then
      if RuneStart (p.getD start.toNat 0) then start
      else lastRuneStartLoop p lim fuel (start - 1)
    else start

/-- The function `utf8.DecodeLastRune`: the last rune of `p` and its width. -/
def DecodeLastRune (p : Bytes) : Nat × Nat :=
  if p.length = 0 then (RuneError, 0)
  else
    let last := p.getD (p.length - 1) 0
    if last < RuneSelf then (last, 1)
    else
      let lim : Int := max 0 ((p.length : Int) - 4)
      let start := lastRuneStartLoop p lim 4 ((p.length : Int) - 2)
      let start := if start < 0 then 0 else start
      let (r, size) := DecodeRune (p.drop start.toNat)
      if start.toNat + size ≠ p.length then (RuneError, 1) else (r, size)

/-! ## `unicode` and `strings` -/

/-- The function `unicode.IsSpace`. -/
def IsSpace (r : Nat) : Bool :=
  if r ≤ 0xFF then
    r = 0x09 || r = 0x0A || r = 0x0B || r = 0x0C || r = 0x0D || r = 0x20
      || r = 0x85 || r = 0xA0
  else
    r = 0x1680 || (0x2000 ≤ r && r ≤ 0x200A) || r = 0x2028 || r = 0x2029
      || r = 0x202F || r = 0x205F || r = 0x3000

/-- The table `asciiSpace` of `strings`: tab, newline, vertical tab, form feed,
carriage return and space. -/
def asciiSpace (c : Nat) : Bool :=
  c = 0x09 || c = 0x0A || c = 0x0B || c = 0x0C || c = 0x0D || c = 0x20

/-- The loop of `strings.indexFunc`: the byte index of the first rune `r` of `p` with
`f r == truth`, where `p` starts at index `i` of the string. -/
def indexFuncLoop (f : Nat → Bool) (truth : Bool) : Nat → Nat → Bytes → Option Nat
  | 0, _, _ => none
  | _, _, [] => none
  | fuel + 1, i, p0 :: rest =>
    let (r, size) := DecodeRune (p0 :: rest)
    if f r == truth then some i
    else indexFuncLoop f truth fuel (i + size) ((p0 :: rest).drop size)

/-- The function `strings.TrimLeftFunc`. -/
def TrimLeftFunc (s : Bytes) (f : Nat → Bool) : Bytes :=
  match indexFuncLoop f false s.length 0 s with
  | none => []
  | some i => s.drop i

/-- The loop of `strings.lastIndexFunc`, from index `i` downwards. -/
def lastIndexFuncLoop (s : Bytes) (f : Nat → Bool) (truth : Bool) : Nat → Nat → Option Nat
  | 0, _ => none
  | fuel + 1, i =>
    if 0 < i then
      let (r, size) := DecodeLastRune (s.take i)
      if f r == truth then some (i - size)
      else lastIndexFuncLoop s f truth fuel (i - size)
    else none

/-- The function `strings.TrimRightFunc`. -/
def TrimRightFunc (s : Bytes) (f : Nat → Bool) : Bytes :=
  match lastIndexFuncLoop s f false s.length s.length with
  | none => s.take 0
  | some i =>
    if RuneSelf ≤ s.getD i 0 then s.take (i + (DecodeRune (s.drop i)).2)
    else s.take (i + 1)

/-- The function `strings.TrimFunc`. -/
def TrimFunc (s : Bytes) (f : Nat → Bool) : Bytes :=
  TrimRightFunc (TrimLeftFunc s f) f

/-- Where a scan of `strings.TrimSpace` stops: at a non-ASCII byte (the rest is handed to
`TrimFunc`), or at the first byte that is not ASCII white space. -/
inductive TrimScan where
  | nonASCII (rest : Bytes)
  | stopped (rest : Bytes)

/-- The first loop of `strings.TrimSpace`, over `s[start:]`. -/
def trimSpaceStart : Bytes → TrimScan
  | [] => .stopped []
  | c :: cs =>
    if RuneSelf ≤ c then .nonASCII (c :: cs)
    else if asciiSpace c then trimSpaceStart cs
    else .stopped (c :: cs)

/-- The second loop of `strings.TrimSpace`, over `s[start:stop]` read from its end (the
argument is that substring reversed). -/
def trimSpaceStop : Bytes → TrimScan
  | [] => .stopped []
  | c :: cs =>
    if RuneSelf ≤ c then .nonASCII (c :: cs)
    else if asciiSpace c then trimSpaceStop cs
    else .stopped (c :: cs)

/-- The function `strings.TrimSpace`. -/
def TrimSpace (s : Bytes) : Bytes :=
  match trimSpaceStart s with
  | .nonASCII rest => TrimFunc rest IsSpace
  | .stopped rest =>
    match trimSpaceStop rest.reverse with
    | .nonASCII r => TrimFunc r.reverse IsSpace
    | .stopped r => r.reverse

/-- The call `strings.Split(s, sep)` for a separator `sep` of one byte: the pieces of `s`
between the occurrences of `sep`, at least one piece. -/
def Split (sep : Nat) : Bytes → List Bytes
  | [] => [[]]
  | b :: bs =>
    if b = sep then [] :: Split sep bs
    else
      match Split sep bs with
      | [] => [[b]]
      | piece :: pieces => (b :: piece) :: pieces

/-- The function `strings.Join`. -/
def Join (sep : Bytes) : List Bytes → Bytes
  | [] => []
  | [a] => a
  | a :: b :: rest => a ++ sep ++ Join sep (b :: rest)

/-! ## `ReadVersion` -/

/-- One call `reader.Read(buf)`: the `n = len(data)` bytes stored in `buf[0:n]` and the
error returned with them. -/
structure ReadResult where
  data : Bytes
  err : Option GoError

/-- A read that delivers `data` and no error. -/
def ReadResult.ok (data : Bytes) : ReadResult := ⟨data, none⟩

/-- What a call of `ReadVersion` does: it returns `(version, err)`, or it stops with the
run-time error "index out of range [index] with length len". -/
inductive Outcome where
  | returned (version : Bytes) (err : Option GoError)
  | indexOutOfRange (index len : Nat)
  deriving DecidableEq, Repr

/-- How the loop `for i := 0; i < n; i++` over `chars` ends. -/
inductive ScanEnd where
  /-- The loop ran to `i = n` without seeing a newline. -/
  | noNewline
  /-- Some `chars[i]` was a newline: `break reader`. -/
  | newline
  /-- The access `chars[i]` was out of range. -/
  | outOfRange (index len : Nat)
  deriving DecidableEq, Repr

/-- The loop `for i := 0; i < n; i++ { c := chars[i]; if c == '\n' { break reader } }`,
from index `i`. -/
def scanLoop (chars : List Nat) (n : Nat) : Nat → Nat → ScanEnd
  | 0, _ => .noNewline
  | fuel + 1, i =>
    if i < n then
      match chars.get? i with
      | none => .outOfRange i chars.length
      | some c => if c = 0x0A then .newline else scanLoop chars n fuel (i + 1)
    else .noNewline

/-- The code of `ReadVersion` after its read loop, on `sent = read.String()`. -/
def parseVersion (sent : Bytes) : Outcome :=
  let values := Split 0x20 sent
  if values.length < 2 then
    .returned [] (some (.errorf (ascii ("invalid value ") ++ sent)))
  else
    .returned (TrimSpace (Join [0x20] (values.drop 1))) none

/-- The read loop of `ReadVersion`: `script` lists the results of the coming calls of
`reader.Read` (a reader that has no more results returns `(0, io.EOF)`), `buf` is the
16-byte buffer and `read` the bytes accumulated so far. -/
def readLoop : List ReadResult → Bytes → Bytes → Outcome
  | [], _, _ => .returned [] (some .EOF)
  | r :: rest, buf, read =>
    match r.err with
    | some e => .returned [] (some e)
    | none =>
      let n := r.data.length
      let buf := r.data ++ buf.drop n
      let read := read ++ r.data
      let chars := runes buf
      match scanLoop chars n n 0 with
      | .outOfRange index len => .indexOutOfRange index len
      | .newline => parseVersion read
      | .noNewline => readLoop rest buf read

/-- The function `ReadVersion` on a reader whose calls of `Read` give `script`. -/
def ReadVersion (script : List ReadResult) : Outcome :=
  readLoop script (List.replicate 16 0) []

/-! ## `VotifierMessage.Write` -/

/-- The struct `VotifierMessage`. -/
structure VotifierMessage where
  ServiceName : Bytes
  Username : Bytes
  Address : Bytes
  TimeStamp : Bytes

/-- The constant `desiredSize`. -/
def desiredSize : Nat := 256 - 11

/-- The fields of `rsa.PublicKey`: modulus and public exponent. -/
structure PublicKey where
  N : Nat
  E : Nat

/-- The method `big.Int.BitLen`. -/
def bitLen (n : Nat) : Nat := if n = 0 then 0 else Nat.log2 n + 1

/-- The method `rsa.PublicKey.Size`: the modulus size in bytes. -/
def PublicKey.Size (pub : PublicKey) : Nat := (bitLen pub.N + 7) / 8

/-- The function `checkPub` of `crypto/rsa`. -/
def checkPub (pub : PublicKey) : Option GoError :=
  if pub.E < 2 then some .publicExponentSmall
  else if 2 ^ 31 - 1 < pub.E then some .publicExponentLarge
  else none

/-- The function `rsa.EncryptPKCS1v15`: the key check and the length check
`len(msg) > k-11` of the library; `cipher` stands for the rest, the random padding and
the modular exponentiation, which gives a ciphertext or fails. -/
def EncryptPKCS1v15 (cipher : PublicKey → Bytes → Except GoError Bytes)
    (pub : PublicKey) (msg : Bytes) : Except GoError Bytes :=
  match checkPub pub with
  | some e => .error e
  | none =>
    if (pub.Size : Int) - 11 < (msg.length : Int) then .error .messageTooLong
    else cipher pub msg

/-- The closure `writePart` of `Write`, on the buffer `buf`. -/
def writePart (buf : Bytes) (part : Bytes) : Except GoError Bytes :=
  if part.length = 0 then
    .error (.errorf (ascii ("invalid write component; is blank")))
  else
    .ok ((buf ++ part) ++ [0x0A])

/-- The loop `for buf.Len() < desiredSize { buf.WriteByte(0) }`.  Every step makes the
buffer one byte longer, so `desiredSize` steps are enough. -/
def padLoop : Nat → Bytes → Bytes
  | 0, buf => buf
  | fuel + 1, buf =>
    if buf.length < desiredSize then padLoop fuel (buf ++ [0]) else buf

/-- What a call of `Write` did: the error it returned, the block it handed to
`rsa.EncryptPKCS1v15` (if it got that far), and the arguments of its calls of
`writer.Write`, in order. -/
structure WriteTrace where
  err : Option GoError
  block : Option Bytes
  written : List Bytes
  deriving DecidableEq, Repr

/-- The five calls of `writePart` in `Write`, each followed by `if err != nil return`. -/
def writeParts (msg : VotifierMessage) : Except GoError Bytes := do
  let buf ← writePart [] (ascii ("VOTE"))
  let buf ← writePart buf msg.ServiceName
  let buf ← writePart buf msg.Username
  let buf ← writePart buf msg.Address
  writePart buf msg.TimeStamp

/-- The method `VotifierMessage.Write`.  `cipher` is the encryption behind
`rsa.EncryptPKCS1v15` and `writer` gives the error that `writer.Write` returns for its
argument. -/
def VotifierMessage.Write (msg : VotifierMessage)
    (cipher : PublicKey → Bytes → Except GoError Bytes) (writer : Bytes → Option GoError)
    (key : PublicKey) : WriteTrace :=
  match writeParts msg with
  | .error e => ⟨some e, none, []⟩
  | .ok buf =>
    let buf := padLoop desiredSize buf
    match EncryptPKCS1v15 cipher key buf with
    | .error e => ⟨some e, some buf, []⟩
    | .ok encryptedMessage => ⟨writer encryptedMessage, some buf, [encryptedMessage]⟩

/-- The serialized record: `"VOTE\n"` and the four fields, each followed by `"\n"`. -/
def serialized (msg : VotifierMessage) : Bytes :=
  ascii ("VOTE\n") ++ msg.ServiceName ++ [0x0A] ++ msg.Username ++ [0x0A]
    ++ msg.Address ++ [0x0A] ++ msg.TimeStamp ++ [0x0A]

/-- A byte string with its trailing `0x00` bytes removed. -/
def stripZeros (b : Bytes) : Bytes := (b.reverse.dropWhile (· = 0)).reverse

/-- A byte string with leading and trailing ASCII white space removed. -/
def trimWhitespace (s : Bytes) : Bytes :=
  ((s.dropWhile asciiSpace).reverse.dropWhile asciiSpace).reverse

/-- The record of the end-to-end scenario. -/
def sampleMessage : VotifierMessage :=
  ⟨ascii ("example.com"), ascii ("Steve"), ascii ("203.0.113.5"),
    ascii ("Mon Jan 2 15:04:05 MST 2006")⟩

/-- A stand-in cipher for evaluating `Write`: it returns `Size` bytes. -/
def sampleCipher : PublicKey → Bytes → Except GoError Bytes :=
  fun pub _ => .ok (List.replicate pub.Size 1)

/-- A writer that accepts everything. -/
def sampleWriter : Bytes → Option GoError := fun _ => none

/-- A public key whose modulus has `bits` bits (for `bits ≥ 1`), with exponent 65537. -/
def keyOfBits (bits : Nat) : PublicKey := ⟨2 ^ (bits - 1), 65537⟩

/-- Every byte of `s` is an ASCII character (below `0x80`). -/
def IsASCII (s : Bytes) : Prop := ∀ b ∈ s, b < 0x80

instance (s : Bytes) : Decidable (IsASCII s) := by
  unfold IsASCII
  infer_instance

/-! ## Facts about the encoder -/

theorem Size_keyOfBits (bits : Nat) (h : 1 ≤ bits) : (keyOfBits bits).Size = (bits + 7) / 8 := by
  have hne : 2 ^ (bits - 1) ≠ 0 := by positivity
  simp only [PublicKey.Size, keyOfBits, bitLen, hne, if_false, Nat.log2_two_pow]
  congr 1
  omega

theorem padLoop_eq (fuel : Nat) (buf : Bytes) (h : desiredSize - buf.length ≤ fuel) :
    padLoop fuel buf = buf ++ List.replicate (desiredSize - buf.length) 0 := by
  induction fuel generalizing buf with
  | zero =>
    have h0 : desiredSize - buf.length = 0 := by omega
    simp [padLoop, h0]
  | succ fuel ih =>
    unfold padLoop
    split
    · next hlt =>
      have hlen : (buf ++ [0]).length = buf.length + 1 := by simp
      rw [ih (buf ++ [0]) (by rw [hlen]; omega), hlen]
      have hk : desiredSize - buf.length = (desiredSize - (buf.length + 1)) + 1 := by omega
      rw [hk, List.replicate_succ]
      simp
    · next hge =>
      have h0 : desiredSize - buf.length = 0 := by omega
      simp [h0]

theorem pad_eq (buf : Bytes) :
    padLoop desiredSize buf = buf ++ List.replicate (desiredSize - buf.length) 0 :=
  padLoop_eq desiredSize buf (Nat.sub_le _ _)

theorem writePart_ok (buf part : Bytes) (h : part ≠ []) :
    writePart buf part = .ok ((buf ++ part) ++ [0x0A]) := by
  have hlen : part.length ≠ 0 := fun h0 => h (List.length_eq_zero.mp h0)
  simp [writePart, hlen]

theorem writePart_blank (buf : Bytes) :
    writePart buf [] = .error (.errorf (ascii ("invalid write component; is blank"))) := by
  simp [writePart]

theorem writeParts_ok (msg : VotifierMessage) (hs : msg.ServiceName ≠ [])
    (hu : msg.Username ≠ []) (ha : msg.Address ≠ []) (ht : msg.TimeStamp ≠ []) :
    writeParts msg = .ok (serialized msg) := by
  have hv : ascii ("VOTE") ≠ [] := by decide
  have hvote : ascii ("VOTE\n") = ascii ("VOTE") ++ [0x0A] := by decide
  simp only [writeParts, writePart_ok _ _ hv, writePart_ok _ _ hs, writePart_ok _ _ hu,
    writePart_ok _ _ ha, writePart_ok _ _ ht, serialized, hvote, bind, Except.bind,
    List.nil_append]

theorem writeParts_blank (msg : VotifierMessage)
    (h : msg.ServiceName = [] ∨ msg.Username = [] ∨ msg.Address = [] ∨ msg.TimeStamp = []) :
    writeParts msg = .error (.errorf (ascii ("invalid write component; is blank"))) := by
  have hv : ascii ("VOTE") ≠ [] := by decide
  simp only [writeParts, writePart_ok _ _ hv, bind, Except.bind]
  by_cases hs : msg.ServiceName = []
  · simp [hs, writePart_blank]
  · simp only [writePart_ok _ _ hs]
    by_cases hu : msg.Username = []
    · simp [hu, writePart_blank]
    · simp only [writePart_ok _ _ hu]
      by_cases ha : msg.Address = []
      · simp [ha, writePart_blank]
      · simp only [writePart_ok _ _ ha]
        have ht : msg.TimeStamp = [] := by tauto
        simp [ht, writePart_blank]

theorem serialized_length (msg : VotifierMessage) :
    (serialized msg).length
      = 9 + (msg.ServiceName.length + msg.Username.length + msg.Address.length
          + msg.TimeStamp.length) := by
  have hvote : (ascii ("VOTE\n")).length = 5 := by decide
  simp only [serialized, List.length_append, hvote, List.length_singleton]
  omega

theorem Write_block_of_ok (msg : VotifierMessage)
    (cipher : PublicKey → Bytes → Except GoError Bytes) (writer : Bytes → Option GoError)
    (key : PublicKey) (buf : Bytes) (h : writeParts msg = .ok buf) :
    (msg.Write cipher writer key).block
      = some (buf ++ List.replicate (desiredSize - buf.length) 0) := by
  simp only [VotifierMessage.Write, h, pad_eq]
  split <;> rfl

theorem Write_of_blank (msg : VotifierMessage)
    (cipher : PublicKey → Bytes → Except GoError Bytes) (writer : Bytes → Option GoError)
    (key : PublicKey)
    (h : msg.ServiceName = [] ∨ msg.Username = [] ∨ msg.Address = [] ∨ msg.TimeStamp = []) :
    msg.Write cipher writer key
      = ⟨some (.errorf (ascii ("invalid write component; is blank"))), none, []⟩ := by
  simp only [VotifierMessage.Write, writeParts_blank msg h]

theorem Write_too_long (msg : VotifierMessage)
    (cipher : PublicKey → Bytes → Except GoError Bytes) (writer : Bytes → Option GoError)
    (key : PublicKey) (buf : Bytes) (h : writeParts msg = .ok buf)
    (hlong : (key.Size : Int) - 11 < (buf.length : Int)) :
    (msg.Write cipher writer key).err ≠ none ∧ (msg.Write cipher writer key).written = [] := by
  have hpad : (key.Size : Int) - 11
      < ((buf ++ List.replicate (desiredSize - buf.length) 0).length : Int) := by
    simp only [List.length_append, List.length_replicate]
    push_cast
    omega
  simp only [VotifierMessage.Write, h, pad_eq, EncryptPKCS1v15]
  cases hc : checkPub key with
  | some e => simp
  | none => simp only [if_pos hpad]; simp

theorem stripZeros_append_zeros (s : Bytes) (k : Nat) (h : s.getLast? = some 0x0A) :
    stripZeros (s ++ List.replicate k 0) = s := by
  obtain ⟨front, rfl⟩ : ∃ front, s = front ++ [0x0A] := by
    rcases List.eq_nil_or_concat s with rfl | ⟨front, b, rfl⟩
    · simp at h
    · simp at h
      exact ⟨front, by simp [h]⟩
  have hdrop : ∀ (k : Nat) (t : Bytes),
      (List.replicate k 0 ++ 0x0A :: t).dropWhile (· = 0) = 0x0A :: t := by
    intro k t
    induction k with
    | zero => simp [List.dropWhile]
    | succ k ih => simp [List.replicate_succ, List.dropWhile]
  simp only [stripZeros, List.reverse_append, List.reverse_replicate, List.reverse_cons,
    List.reverse_nil, List.nil_append, List.singleton_append, hdrop, List.reverse_reverse]

theorem serialized_getLast (msg : VotifierMessage) :
    (serialized msg).getLast? = some 0x0A := by
  simp only [serialized, List.getLast?_append, List.getLast?_singleton]
  rfl


/-! ## Facts about the greeting reader -/

theorem DecodeRune_ascii (p0 : Nat) (rest : Bytes) (h : p0 < 0x80) :
    DecodeRune (p0 :: rest) = (p0, 1) := by
  simp [DecodeRune, RuneSelf, h]

theorem runesLoop_ascii (fuel : Nat) (s : Bytes) (hfuel : s.length ≤ fuel) (h : IsASCII s) :
    runesLoop fuel s = s := by
  induction fuel generalizing s with
  | zero =>
    have hs : s = [] := List.length_eq_zero.mp (Nat.le_zero.mp hfuel)
    subst hs
    rfl
  | succ fuel ih =>
    cases s with
    | nil => rfl
    | cons p0 rest =>
      have h0 : p0 < 0x80 := h p0 (List.mem_cons_self _ _)
      have hrest : IsASCII rest := fun b hb => h b (List.mem_cons_of_mem _ hb)
      have hlen : rest.length ≤ fuel := by
        simp only [List.length_cons] at hfuel
        omega
      simp only [runesLoop, DecodeRune_ascii p0 rest h0, List.drop_succ_cons, List.drop_zero,
        ih rest hlen hrest]

theorem runes_ascii (s : Bytes) (h : IsASCII s) : runes s = s :=
  runesLoop_ascii s.length s (Nat.le_refl _) h

theorem scanLoop_in_range (chars : List Nat) (n : Nat) (hn : n ≤ chars.length)
    (fuel i : Nat) (hfuel : n ≤ i + fuel) :
    scanLoop chars n fuel i
      = if 0x0A ∈ (chars.take n).drop i then ScanEnd.newline else ScanEnd.noNewline := by
  induction fuel generalizing i with
  | zero =>
    have hdrop : (chars.take n).drop i = [] := by
      apply List.drop_eq_nil_of_le
      simp only [List.length_take]
      omega
    simp [scanLoop, hdrop]
  | succ fuel ih =>
    unfold scanLoop
    by_cases hi : i < n
    · have hlt : i < chars.length := by omega
      have hlt2 : i < (chars.take n).length := by
        simp only [List.length_take]
        omega
      have hget : chars.get? i = some chars[i] := List.get?_eq_get hlt
      have hcons : (chars.take n).drop i = chars[i] :: (chars.take n).drop (i + 1) := by
        rw [List.drop_eq_getElem_cons hlt2, List.getElem_take]
      simp only [hi, if_true, hget, hcons, List.mem_cons]
      by_cases hc : chars[i] = 0x0A
      · simp [hc]
      · rw [if_neg hc, ih (i + 1) (by omega)]
        have hne : ¬ (0x0A = chars[i]) := fun h => hc h.symm
        simp [hne]
    · have hdrop : (chars.take n).drop i = [] := by
        apply List.drop_eq_nil_of_le
        simp only [List.length_take]
        omega
      simp [hi, hdrop]

/-- When the rune slice is shorter than `n` and holds no newline, the scan runs off its end:
the access `chars[len(chars)]` is out of range. -/
theorem scanLoop_out_of_range (chars : List Nat) (n : Nat) (hshort : chars.length < n)
    (fuel i : Nat) (hi : i ≤ chars.length) (hfuel : n ≤ i + fuel)
    (hnl : 0x0A ∉ chars.drop i) :
    scanLoop chars n fuel i = .outOfRange chars.length chars.length := by
  induction fuel generalizing i with
  | zero => omega
  | succ fuel ih =>
    unfold scanLoop
    have hin : i < n := by omega
    rw [if_pos hin]
    by_cases hlt : i < chars.length
    · have hget : chars.get? i = some chars[i] := List.get?_eq_get hlt
      have hcons : chars.drop i = chars[i] :: chars.drop (i + 1) :=
        List.drop_eq_getElem_cons hlt
      rw [hcons] at hnl
      have hc : ¬ chars[i] = 0x0A := fun h => hnl (h ▸ List.mem_cons_self _ _)
      have hrest : 0x0A ∉ chars.drop (i + 1) := fun h => hnl (List.mem_cons_of_mem _ h)
      simp only [hget, if_neg hc]
      exact ih (i + 1) (by omega) (by omega) hrest
    · have hieq : i = chars.length := by omega
      subst hieq
      have hget : chars.get? chars.length = none := List.get?_eq_none.mpr (Nat.le_refl _)
      simp only [hget]

/-- The buffer after a read of `data` into it. -/
def refill (buf data : Bytes) : Bytes := data ++ buf.drop data.length

theorem refill_ascii (buf data : Bytes) (hbuf : IsASCII buf) (hdata : IsASCII data) :
    IsASCII (refill buf data) := by
  intro b hb
  simp only [refill, List.mem_append] at hb
  rcases hb with hb | hb
  · exact hdata b hb
  · exact hbuf b (List.mem_of_mem_drop hb)

theorem readLoop_ascii_step (data : Bytes) (rest : List ReadResult) (buf read : Bytes)
    (hbufA : IsASCII buf) (hdataA : IsASCII data) :
    readLoop (ReadResult.ok data :: rest) buf read
      = if 0x0A ∈ data then parseVersion (read ++ data)
        else readLoop rest (refill buf data) (read ++ data) := by
  have hrunes : runes (data ++ buf.drop data.length) = data ++ buf.drop data.length :=
    runes_ascii _ (refill_ascii buf data hbufA hdataA)
  have hlen : data.length ≤ (data ++ buf.drop data.length).length := by simp
  have hscan := scanLoop_in_range (data ++ buf.drop data.length) data.length hlen
    data.length 0 (by omega)
  simp only [List.take_left', List.drop_zero] at hscan
  simp only [readLoop, ReadResult.ok, hrunes, hscan, refill]
  by_cases hnl : 0x0A ∈ data
  · simp only [if_pos hnl]
  · simp only [if_neg hnl]

theorem readLoop_error (data : Bytes) (e : GoError) (rest : List ReadResult)
    (buf read : Bytes) :
    readLoop (⟨data, some e⟩ :: rest) buf read = .returned [] (some e) := by
  simp [readLoop]

/-- The read loop over ASCII chunks that hold no newline only accumulates them. -/
theorem readLoop_ascii_prefix (pre : List Bytes) (rest : List ReadResult) (buf read : Bytes)
    (hbufA : IsASCII buf) (hpre : ∀ c ∈ pre, IsASCII c ∧ 0x0A ∉ c) :
    ∃ buf2, IsASCII buf2 ∧
      readLoop (pre.map ReadResult.ok ++ rest) buf read
        = readLoop rest buf2 (read ++ pre.flatten) := by
  induction pre generalizing buf read with
  | nil => exact ⟨buf, hbufA, by simp⟩
  | cons c cs ih =>
    obtain ⟨hcA, hcnl⟩ := hpre c (List.mem_cons_self _ _)
    have hcs : ∀ d ∈ cs, IsASCII d ∧ 0x0A ∉ d :=
      fun d hd => hpre d (List.mem_cons_of_mem _ hd)
    obtain ⟨buf2, hA, heq⟩ := ih (refill buf c) (read ++ c) (refill_ascii buf c hbufA hcA) hcs
    refine ⟨buf2, hA, ?_⟩
    simp only [List.map_cons, List.cons_append, List.flatten_cons]
    rw [readLoop_ascii_step c _ buf read hbufA hcA, if_neg hcnl, heq, List.append_assoc]

theorem initial_buf_ascii : IsASCII (List.replicate 16 0) := by
  intro b hb
  rw [List.eq_of_mem_replicate hb]
  decide

/-- ASCII chunks without a newline, then a chunk with one: the text handed on to the
parsing is everything read, the whole last chunk included. -/
theorem ReadVersion_ascii_newline (pre : List Bytes) (last : Bytes) (rest : List ReadResult)
    (hpre : ∀ c ∈ pre, IsASCII c ∧ 0x0A ∉ c) (hlast : IsASCII last ∧ 0x0A ∈ last) :
    ReadVersion (pre.map ReadResult.ok ++ ReadResult.ok last :: rest)
      = parseVersion (pre.flatten ++ last) := by
  obtain ⟨buf2, hA, heq⟩ := readLoop_ascii_prefix pre (ReadResult.ok last :: rest)
    (List.replicate 16 0) [] initial_buf_ascii hpre
  rw [ReadVersion, heq, readLoop_ascii_step last rest buf2 _ hA hlast.1,
    if_pos hlast.2, List.nil_append]

/-- ASCII chunks without a newline, then a failing read: the read error is returned with
the empty version. -/
theorem ReadVersion_ascii_read_error (pre : List Bytes) (data : Bytes) (e : GoError)
    (rest : List ReadResult) (hpre : ∀ c ∈ pre, IsASCII c ∧ 0x0A ∉ c) :
    ReadVersion (pre.map ReadResult.ok ++ ⟨data, some e⟩ :: rest) = .returned [] (some e) := by
  obtain ⟨buf2, _, heq⟩ := readLoop_ascii_prefix pre (⟨data, some e⟩ :: rest)
    (List.replicate 16 0) [] initial_buf_ascii hpre
  rw [ReadVersion, heq, readLoop_error]

/-- ASCII chunks without a newline, then the end of the stream: `io.EOF` is returned with
the empty version. -/
theorem ReadVersion_ascii_end (pre : List Bytes) (hpre : ∀ c ∈ pre, IsASCII c ∧ 0x0A ∉ c) :
    ReadVersion (pre.map ReadResult.ok) = .returned [] (some .EOF) := by
  obtain ⟨buf2, _, heq⟩ := readLoop_ascii_prefix pre []
    (List.replicate 16 0) [] initial_buf_ascii hpre
  rw [List.append_nil] at heq
  rw [ReadVersion, heq]
  rfl

theorem chunk_with_newline (c t g : Bytes) (h : c ++ t = g ++ [0x0A]) (hc : 0x0A ∈ c)
    (hg : 0x0A ∉ g) : c = g ++ [0x0A] := by
  rcases List.append_eq_append_iff.mp h with ⟨a, hga, _⟩ | ⟨d, hcd, hd⟩
  · exact absurd (hga ▸ List.mem_append_left a hc) hg
  · cases d with
    | nil =>
      rw [List.append_nil] at hcd
      exact absurd (hcd ▸ hc) hg
    | cons x d =>
      simp only [List.cons_append, List.cons.injEq] at hd
      obtain ⟨hx, hnil⟩ := hd
      have hdnil : d = [] := (List.append_eq_nil.mp hnil.symm).1
      rw [hcd, ← hx, hdnil]

theorem chunk_without_newline (c t g : Bytes) (h : c ++ t = g ++ [0x0A]) (hc : 0x0A ∉ c) :
    ∃ g2, g = c ++ g2 ∧ t = g2 ++ [0x0A] := by
  rcases List.append_eq_append_iff.mp h with ⟨a, hga, hta⟩ | ⟨d, hcd, hd⟩
  · exact ⟨a, hga, hta⟩
  · cases d with
    | nil =>
      rw [List.append_nil] at hcd
      exact ⟨[], by simp [hcd], by simpa using hd.symm⟩
    | cons x d =>
      simp only [List.cons_append, List.cons.injEq] at hd
      exact absurd (by rw [hcd, ← hd.1]; simp) hc

/-- ASCII chunks that together are a line `g ++ "\n"` with no other newline: the text
handed on to the parsing is that line. -/
theorem readLoop_ascii_line (chunks : List Bytes) (buf read g : Bytes) (hbufA : IsASCII buf)
    (hchunks : ∀ c ∈ chunks, IsASCII c) (hflat : chunks.flatten = g ++ [0x0A])
    (hg : 0x0A ∉ g) :
    readLoop (chunks.map ReadResult.ok) buf read = parseVersion (read ++ (g ++ [0x0A])) := by
  induction chunks generalizing buf read g with
  | nil => simp at hflat
  | cons c cs ih =>
    have hcA : IsASCII c := hchunks c (List.mem_cons_self _ _)
    have hcs : ∀ d ∈ cs, IsASCII d := fun d hd => hchunks d (List.mem_cons_of_mem _ hd)
    rw [List.flatten_cons] at hflat
    rw [List.map_cons, readLoop_ascii_step c _ buf read hbufA hcA]
    by_cases hc : 0x0A ∈ c
    · rw [if_pos hc, chunk_with_newline c _ g hflat hc hg]
    · obtain ⟨g2, hg2, ht⟩ := chunk_without_newline c _ g hflat hc
      have hg2nl : 0x0A ∉ g2 := fun hmem => hg (hg2 ▸ List.mem_append_right c hmem)
      rw [if_neg hc, ih (refill buf c) (read ++ c) g2 (refill_ascii buf c hbufA hcA) hcs ht
        hg2nl, hg2]
      simp only [List.append_assoc]

/-! ## Facts about `Split`, `Join` and `TrimSpace` -/

theorem Split_ne_nil (sep : Nat) (s : Bytes) : Split sep s ≠ [] := by
  cases s with
  | nil => simp [Split]
  | cons b bs =>
    unfold Split
    split
    · simp
    · split <;> simp

theorem Split_no_sep (sep : Nat) (s : Bytes) (h : sep ∉ s) : Split sep s = [s] := by
  induction s with
  | nil => rfl
  | cons b bs ih =>
    have hb : b ≠ sep := fun hb => h (hb ▸ List.mem_cons_self _ _)
    have hbs : sep ∉ bs := fun hm => h (List.mem_cons_of_mem _ hm)
    simp [Split, hb, ih hbs]

theorem Split_first_sep (sep : Nat) (x rest : Bytes) (h : sep ∉ x) :
    Split sep (x ++ sep :: rest) = x :: Split sep rest := by
  induction x with
  | nil => simp [Split]
  | cons b bs ih =>
    have hb : b ≠ sep := fun hb => h (hb ▸ List.mem_cons_self _ _)
    have hbs : sep ∉ bs := fun hm => h (List.mem_cons_of_mem _ hm)
    simp [Split, hb, ih hbs]

theorem Join_Split (sep : Nat) (s : Bytes) : Join [sep] (Split sep s) = s := by
  induction s with
  | nil => rfl
  | cons b bs ih =>
    unfold Split
    by_cases hb : b = sep
    · rw [if_pos hb]
      cases hsp : Split sep bs with
      | nil => exact absurd hsp (Split_ne_nil sep bs)
      | cons piece pieces =>
        rw [hsp] at ih
        simp only [Join, List.nil_append, List.singleton_append, ih, hb]
    · rw [if_neg hb]
      cases hsp : Split sep bs with
      | nil => exact absurd hsp (Split_ne_nil sep bs)
      | cons piece pieces =>
        rw [hsp] at ih
        cases pieces with
        | nil =>
          simp only [Join] at ih ⊢
          rw [ih]
        | cons q qs =>
          simp only [Join, List.cons_append] at ih ⊢
          rw [ih]

theorem trimSpaceStart_ascii (s : Bytes) (h : IsASCII s) :
    trimSpaceStart s = .stopped (s.dropWhile asciiSpace) := by
  induction s with
  | nil => rfl
  | cons c cs ih =>
    have hc : ¬ RuneSelf ≤ c := by
      have := h c (List.mem_cons_self _ _)
      simp only [RuneSelf]
      omega
    have hcs : IsASCII cs := fun b hb => h b (List.mem_cons_of_mem _ hb)
    unfold trimSpaceStart
    rw [if_neg hc]
    by_cases hsp : asciiSpace c = true
    · rw [if_pos hsp, ih hcs, List.dropWhile_cons_of_pos hsp]
    · rw [if_neg hsp, List.dropWhile_cons_of_neg hsp]

theorem trimSpaceStop_ascii (s : Bytes) (h : IsASCII s) :
    trimSpaceStop s = .stopped (s.dropWhile asciiSpace) := by
  induction s with
  | nil => rfl
  | cons c cs ih =>
    have hc : ¬ RuneSelf ≤ c := by
      have := h c (List.mem_cons_self _ _)
      simp only [RuneSelf]
      omega
    have hcs : IsASCII cs := fun b hb => h b (List.mem_cons_of_mem _ hb)
    unfold trimSpaceStop
    rw [if_neg hc]
    by_cases hsp : asciiSpace c = true
    · rw [if_pos hsp, ih hcs, List.dropWhile_cons_of_pos hsp]
    · rw [if_neg hsp, List.dropWhile_cons_of_neg hsp]

/-- On ASCII text `strings.TrimSpace` removes the leading and trailing white space. -/
theorem TrimSpace_ascii (s : Bytes) (h : IsASCII s) : TrimSpace s = trimWhitespace s := by
  have hdrop : IsASCII (s.dropWhile asciiSpace).reverse := fun b hb =>
    h b (List.dropWhile_subset asciiSpace (List.mem_reverse.mp hb))
  simp only [TrimSpace, trimSpaceStart_ascii s h, trimSpaceStop_ascii _ hdrop, trimWhitespace]

theorem trimWhitespace_append_space (s pad : Bytes) (hpad : ∀ b ∈ pad, asciiSpace b = true) :
    trimWhitespace (s ++ pad) = trimWhitespace s := by
  have hrev : ∀ b ∈ pad.reverse, asciiSpace b = true :=
    fun b hb => hpad b (List.mem_reverse.mp hb)
  unfold trimWhitespace
  rw [List.dropWhile_append]
  cases hs : s.dropWhile asciiSpace with
  | nil =>
    have hall : pad.dropWhile asciiSpace = [] := List.dropWhile_eq_nil_iff.mpr hpad
    simp [hall]
  | cons a t =>
    simp only [List.isEmpty_cons, Bool.false_eq_true, if_false, List.reverse_append]
    rw [List.dropWhile_append_of_pos hrev]

theorem parseVersion_first_space (x rest : Bytes) (h : 0x20 ∉ x) :
    parseVersion (x ++ 0x20 :: rest) = .returned (TrimSpace rest) none := by
  have hlen : ¬ (x :: Split 0x20 rest).length < 2 := by
    cases hsp : Split 0x20 rest with
    | nil => exact absurd hsp (Split_ne_nil _ rest)
    | cons p ps => simp
  simp only [parseVersion, Split_first_sep 0x20 x rest h, hlen, if_false, List.drop_succ_cons,
    List.drop_zero, Join_Split]

theorem parseVersion_no_space (s : Bytes) (h : 0x20 ∉ s) :
    parseVersion s = .returned [] (some (.errorf (ascii ("invalid value ") ++ s))) := by
  simp [parseVersion, Split_no_sep 0x20 s h]

/-! ## The greeting reader: what `ReadVersion` returns -/

/-- C3: for a well-formed ASCII greeting `X ++ " " ++ body ++ term`, where the first token
`X` has no space and no newline, `body` has no newline and `term` is `"\n"` or `"\r\n"`,
delivered in read chunks of 1 to 16 bytes of any sizes, `ReadVersion` returns no error and
the version is everything after the first token's space with leading and trailing white
space removed, which is `body` trimmed, its inner spaces kept. -/
theorem ReadVersion_well_formed_greeting (X body term : Bytes) (chunks : List Bytes)
    (hX : 0x20 ∉ X ∧ 0x0A ∉ X) (hbody : 0x0A ∉ body)
    (hterm : term = [0x0A] ∨ term = [0x0D, 0x0A])
    (hascii : IsASCII X ∧ IsASCII body)
    (_hsize : ∀ c ∈ chunks, 1 ≤ c.length ∧ c.length ≤ 16)
    (hflat : chunks.flatten = X ++ [0x20] ++ body ++ term) :
    ReadVersion (chunks.map ReadResult.ok) = .returned (trimWhitespace (body ++ term)) none
      ∧ trimWhitespace (body ++ term) = trimWhitespace body := by
  obtain ⟨t0, ht0, ht0A, ht0nl⟩ :
      ∃ t0 : Bytes, term = t0 ++ [0x0A] ∧ IsASCII t0 ∧ 0x0A ∉ t0 := by
    rcases hterm with h | h
    · exact ⟨[], by simp [h], by decide, by decide⟩
    · exact ⟨[0x0D], by simp [h], by decide, by decide⟩
  have htermA : IsASCII term := by
    rcases hterm with h | h <;> rw [h] <;> decide
  have htermS : ∀ b ∈ term, asciiSpace b = true := by
    rcases hterm with h | h <;> rw [h] <;> decide
  have hrestA : IsASCII (body ++ term) := by
    intro b hb
    rcases List.mem_append.mp hb with hb | hb
    · exact hascii.2 b hb
    · exact htermA b hb
  have hflat2 : chunks.flatten = (X ++ [0x20] ++ body ++ t0) ++ [0x0A] := by
    rw [hflat, ht0]
    simp only [List.append_assoc]
  have hg : 0x0A ∉ X ++ [0x20] ++ body ++ t0 := by
    simp only [List.mem_append, List.mem_singleton, not_or]
    exact ⟨⟨⟨hX.2, by decide⟩, hbody⟩, ht0nl⟩
  have hchunks : ∀ c ∈ chunks, IsASCII c := by
    intro c hc b hb
    have hmem : b ∈ chunks.flatten := List.mem_flatten.mpr ⟨c, hc, hb⟩
    rw [hflat] at hmem
    simp only [List.mem_append, List.mem_singleton] at hmem
    rcases hmem with ((hb | hb) | hb) | hb
    · exact hascii.1 b hb
    · rw [hb]; decide
    · exact hascii.2 b hb
    · exact htermA b hb
  have hline := readLoop_ascii_line chunks (List.replicate 16 0) [] _ initial_buf_ascii
    hchunks hflat2 hg
  have hshape : ([] : Bytes) ++ ((X ++ [0x20] ++ body ++ t0) ++ [0x0A])
      = X ++ 0x20 :: (body ++ term) := by
    rw [ht0]
    simp only [List.nil_append, List.append_assoc, List.singleton_append, List.cons_append]
  refine ⟨?_, trimWhitespace_append_space body term htermS⟩
  rw [ReadVersion, hline, hshape, parseVersion_first_space X _ hX.1,
    TrimSpace_ascii _ hrestA]

/-- C3, at the greeting `"VOTING/1.0 2.13\r\n"` cut into chunks of 8, 8 and 1 bytes: the
version is `"2.13"`. -/
theorem ReadVersion_well_formed_greeting_witness :
    trimWhitespace (ascii ("2.13")) = ascii ("2.13")
      ∧ ReadVersion ([ascii ("VOTING/1"), ascii (".0 2.13\r"), ascii ("\n")].map ReadResult.ok)
          = .returned (trimWhitespace (ascii ("2.13") ++ [0x0D, 0x0A])) none
      ∧ trimWhitespace (ascii ("2.13") ++ [0x0D, 0x0A]) = trimWhitespace (ascii ("2.13")) :=
  ⟨by decide,
    ReadVersion_well_formed_greeting (ascii ("VOTING/1.0")) (ascii ("2.13")) [0x0D, 0x0A]
      [ascii ("VOTING/1"), ascii (".0 2.13\r"), ascii ("\n")]
      (by decide) (by decide) (Or.inr rfl) (by decide) (by decide) (by decide)⟩

/-- C4 fails on the code: a stream whose first read fills the buffer with the 16 bytes of
`"no newline her"` followed by the two bytes of `é`, and then ends, holds no newline, yet
`ReadVersion` does not return the read error: the buffer converts to 15 runes and the
scan stops with index 15 out of range. -/
theorem ReadVersion_end_without_newline_out_of_range :
    0x0A ∉ ascii ("no newline her") ++ [0xC3, 0xA9]
      ∧ (ascii ("no newline her") ++ [0xC3, 0xA9]).length = 16
      ∧ ReadVersion [ReadResult.ok (ascii ("no newline her") ++ [0xC3, 0xA9])]
          = .indexOutOfRange 15 15
      ∧ ReadVersion [ReadResult.ok (ascii ("no newline her") ++ [0xC3, 0xA9])]
          ≠ .returned [] (some .EOF) := by
  decide

/-- C5 fails as stated: in the single chunk `"HELLO\nA B"` no space precedes the newline,
yet `ReadVersion` returns the version `"B"` and no error. -/
theorem ReadVersion_space_after_newline_accepted :
    0x20 ∉ (ascii ("HELLO\nA B")).takeWhile (fun b => b ≠ 0x0A)
      ∧ ReadVersion [ReadResult.ok (ascii ("HELLO\nA B"))] = .returned (ascii ("B")) none := by
  decide

/-- C5 as amended: for ASCII chunks of at most 16 bytes, read without error, of which
`last` is the first that holds a newline, if no chunk up to and including `last` holds a
space, then `ReadVersion` fails with the error "invalid value " followed by all the text
read, and returns the empty version. -/
theorem ReadVersion_no_space_fails (pre : List Bytes) (last : Bytes) (rest : List ReadResult)
    (hpre : ∀ c ∈ pre, c.length ≤ 16 ∧ IsASCII c ∧ 0x0A ∉ c ∧ 0x20 ∉ c)
    (hlast : last.length ≤ 16 ∧ IsASCII last ∧ 0x0A ∈ last ∧ 0x20 ∉ last) :
    ReadVersion (pre.map ReadResult.ok ++ ReadResult.ok last :: rest)
      = .returned [] (some (.errorf (ascii ("invalid value ") ++ (pre.flatten ++ last)))) := by
  have hpre2 : ∀ c ∈ pre, IsASCII c ∧ 0x0A ∉ c := fun c hc => ⟨(hpre c hc).2.1, (hpre c hc).2.2.1⟩
  have hnosp : 0x20 ∉ pre.flatten ++ last := by
    intro hmem
    rcases List.mem_append.mp hmem with hmem | hmem
    · obtain ⟨c, hc, hb⟩ := List.mem_flatten.mp hmem
      exact (hpre c hc).2.2.2 hb
    · exact hlast.2.2.2 hmem
  rw [ReadVersion_ascii_newline pre last rest hpre2 ⟨hlast.2.1, hlast.2.2.1⟩,
    parseVersion_no_space _ hnosp]

/-- C5 as amended, at the chunks `"VOTI"`, `"FIER\n"`. -/
theorem ReadVersion_no_space_fails_witness :
    ReadVersion ([ascii ("VOTI")].map ReadResult.ok ++ ReadResult.ok (ascii ("FIER\n")) :: [])
      = .returned [] (some (.errorf (ascii ("invalid value ")
          ++ ([ascii ("VOTI")].flatten ++ ascii ("FIER\n"))))) :=
  ReadVersion_no_space_fails [ascii ("VOTI")] (ascii ("FIER\n")) [] (by decide) (by decide)

/-- C10 fails on the code: when the first read fills the buffer with the 16 bytes of
`"VOTIFIER 2 café"`, the buffer converts to 15 runes, the scan reaches `i = 15 < n = 16`
and the access `chars[15]` is out of range. -/
theorem ReadVersion_scan_out_of_range :
    (ascii ("VOTIFIER 2 caf") ++ [0xC3, 0xA9]).length = 16
      ∧ (runes (ascii ("VOTIFIER 2 caf") ++ [0xC3, 0xA9])).length = 15
      ∧ ReadVersion [ReadResult.ok (ascii ("VOTIFIER 2 caf") ++ [0xC3, 0xA9]),
            ReadResult.ok (ascii ("\n"))]
          = .indexOutOfRange 15 15 := by
  decide

/-! ## The encoder: the plaintext block and the failures of `Write` -/

/-- C1: for a message with four non-empty fields whose serialization fits in 245 bytes,
the block that `Write` hands to the encryption is the serialized record
`"VOTE\n" + ServiceName + "\n" + Username + "\n" + Address + "\n" + TimeStamp + "\n"`
followed only by zero bytes, and it is exactly 245 bytes long. -/
theorem Write_block_is_padded_record (msg : VotifierMessage)
    (cipher : PublicKey → Bytes → Except GoError Bytes) (writer : Bytes → Option GoError)
    (key : PublicKey)
    (hs : msg.ServiceName ≠ []) (hu : msg.Username ≠ []) (ha : msg.Address ≠ [])
    (ht : msg.TimeStamp ≠ [])
    (hfit : 9 + (msg.ServiceName.length + msg.Username.length + msg.Address.length
        + msg.TimeStamp.length) ≤ 245) :
    (msg.Write cipher writer key).block
        = some (ascii ("VOTE\n") ++ msg.ServiceName ++ [0x0A] ++ msg.Username ++ [0x0A]
            ++ msg.Address ++ [0x0A] ++ msg.TimeStamp ++ [0x0A]
            ++ List.replicate (245 - (9 + (msg.ServiceName.length + msg.Username.length
                + msg.Address.length + msg.TimeStamp.length))) 0)
      ∧ ((msg.Write cipher writer key).block.map List.length) = some 245 := by
  have hblock := Write_block_of_ok msg cipher writer key _ (writeParts_ok msg hs hu ha ht)
  have hlen := serialized_length msg
  rw [hlen] at hblock
  have hd : desiredSize = 245 := rfl
  rw [hd] at hblock
  refine ⟨hblock, ?_⟩
  rw [hblock]
  simp only [Option.map_some', List.length_append, List.length_replicate, hlen]
  congr 1
  omega

/-- C1, at the record of the end-to-end scenario: 63 serialized bytes and 182 zero bytes. -/
theorem Write_block_is_padded_record_witness :
    (serialized sampleMessage).length = 63
      ∧ (sampleMessage.Write sampleCipher sampleWriter (keyOfBits 2048)).block
          = some (ascii ("VOTE\nexample.com\nSteve\n203.0.113.5\nMon Jan 2 15:04:05 MST 2006\n")
              ++ List.replicate 182 0)
      ∧ ((sampleMessage.Write sampleCipher sampleWriter (keyOfBits 2048)).block.map
          List.length) = some 245 := by
  have h := Write_block_is_padded_record sampleMessage sampleCipher sampleWriter
    (keyOfBits 2048) (by decide) (by decide) (by decide) (by decide) (by decide)
  refine ⟨by decide, ?_, h.2⟩
  rw [h.1]
  rfl

/-- C2: when at least one of the four fields is empty, `Write` returns an error, never
calls `writer.Write` and never reaches the encryption, whatever the key is. -/
theorem Write_empty_field_fails (msg : VotifierMessage)
    (cipher : PublicKey → Bytes → Except GoError Bytes) (writer : Bytes → Option GoError)
    (key : PublicKey)
    (h : msg.ServiceName = [] ∨ msg.Username = [] ∨ msg.Address = [] ∨ msg.TimeStamp = []) :
    (msg.Write cipher writer key).err ≠ none
      ∧ (msg.Write cipher writer key).written = []
      ∧ (msg.Write cipher writer key).block = none := by
  rw [Write_of_blank msg cipher writer key h]
  simp

/-- C2, at a record whose address is empty. -/
theorem Write_empty_field_fails_witness :
    (VotifierMessage.mk (ascii ("example.com")) (ascii ("Steve")) [] (ascii ("now"))).Address = []
      ∧ ((VotifierMessage.mk (ascii ("example.com")) (ascii ("Steve")) []
            (ascii ("now"))).Write sampleCipher sampleWriter (keyOfBits 2048)).err ≠ none
      ∧ ((VotifierMessage.mk (ascii ("example.com")) (ascii ("Steve")) []
            (ascii ("now"))).Write sampleCipher sampleWriter (keyOfBits 2048)).written = []
      ∧ ((VotifierMessage.mk (ascii ("example.com")) (ascii ("Steve")) []
            (ascii ("now"))).Write sampleCipher sampleWriter (keyOfBits 2048)).block = none :=
  ⟨rfl, Write_empty_field_fails _ sampleCipher sampleWriter (keyOfBits 2048)
    (Or.inr (Or.inr (Or.inl rfl)))⟩

/-- C6: when the serialization of a message with four non-empty fields is longer than the
key's modulus size minus 11, `Write` returns an error and never calls `writer.Write`, and
the block it handed to the encryption is the whole serialization followed by the zero
padding (if any): nothing of the record is cut off. -/
theorem Write_oversize_fails (msg : VotifierMessage)
    (cipher : PublicKey → Bytes → Except GoError Bytes) (writer : Bytes → Option GoError)
    (key : PublicKey)
    (hs : msg.ServiceName ≠ []) (hu : msg.Username ≠ []) (ha : msg.Address ≠ [])
    (ht : msg.TimeStamp ≠ [])
    (hlong : (key.Size : Int) - 11
      < ((9 + (msg.ServiceName.length + msg.Username.length + msg.Address.length
          + msg.TimeStamp.length) : Nat) : Int)) :
    (msg.Write cipher writer key).err ≠ none
      ∧ (msg.Write cipher writer key).written = []
      ∧ (msg.Write cipher writer key).block
          = some (serialized msg
              ++ List.replicate (245 - (9 + (msg.ServiceName.length + msg.Username.length
                  + msg.Address.length + msg.TimeStamp.length))) 0) := by
  have hok := writeParts_ok msg hs hu ha ht
  rw [← serialized_length msg] at hlong ⊢
  obtain ⟨herr, hwritten⟩ := Write_too_long msg cipher writer key _ hok hlong
  exact ⟨herr, hwritten, Write_block_of_ok msg cipher writer key _ hok⟩

/-- C6, at the sample record (63 bytes) and a 512-bit key (64 - 11 = 53 bytes). -/
theorem Write_oversize_fails_witness :
    (keyOfBits 512).Size = 64
      ∧ (sampleMessage.Write sampleCipher sampleWriter (keyOfBits 512)).err ≠ none
      ∧ (sampleMessage.Write sampleCipher sampleWriter (keyOfBits 512)).written = []
      ∧ (sampleMessage.Write sampleCipher sampleWriter (keyOfBits 512)).block
          = some (serialized sampleMessage
              ++ List.replicate (245 - (9 + (sampleMessage.ServiceName.length
                  + sampleMessage.Username.length + sampleMessage.Address.length
                  + sampleMessage.TimeStamp.length))) 0) := by
  have hsize : (keyOfBits 512).Size = 64 := Size_keyOfBits 512 (by decide)
  refine ⟨hsize, ?_⟩
  refine Write_oversize_fails sampleMessage sampleCipher sampleWriter (keyOfBits 512)
    (by decide) (by decide) (by decide) (by decide) ?_
  rw [hsize]
  decide

/-- C7 fails as stated: with a 1024-bit key (128 bytes) the sample record (63 bytes) fits
in 128 - 11 = 117 bytes, yet the block handed to the encryption is 245 bytes long, not
117. -/
theorem Write_block_length_not_from_key :
    (keyOfBits 1024).Size = 128
      ∧ (serialized sampleMessage).length ≤ (keyOfBits 1024).Size - 11
      ∧ (sampleMessage.Write sampleCipher sampleWriter (keyOfBits 1024)).block.map List.length
          = some 245
      ∧ (sampleMessage.Write sampleCipher sampleWriter (keyOfBits 1024)).block.map List.length
          ≠ some ((keyOfBits 1024).Size - 11) := by
  have hsize : (keyOfBits 1024).Size = 128 := Size_keyOfBits 1024 (by decide)
  have hlen : (serialized sampleMessage).length = 63 := by decide
  have hd : desiredSize = 245 := rfl
  have hblock : (sampleMessage.Write sampleCipher sampleWriter (keyOfBits 1024)).block.map
      List.length = some 245 := by
    rw [Write_block_of_ok sampleMessage sampleCipher sampleWriter (keyOfBits 1024) _
      (writeParts_ok sampleMessage (by decide) (by decide) (by decide) (by decide))]
    simp only [Option.map_some', List.length_append, List.length_replicate, hlen, hd]
  refine ⟨hsize, ?_, hblock, ?_⟩
  · rw [hsize, hlen]
    decide
  · rw [hblock, hsize]
    decide

/-- C7 as amended: for every key and every message with four non-empty fields the block
handed to the encryption has the length `max 245 (serialized length)`: the padding target
is the constant `desiredSize = 256 - 11 = 245`, whatever the key's modulus size is. -/
theorem Write_block_length_constant (msg : VotifierMessage)
    (cipher : PublicKey → Bytes → Except GoError Bytes) (writer : Bytes → Option GoError)
    (key : PublicKey)
    (hs : msg.ServiceName ≠ []) (hu : msg.Username ≠ []) (ha : msg.Address ≠ [])
    (ht : msg.TimeStamp ≠ []) :
    (msg.Write cipher writer key).block.map List.length
      = some (max 245 (9 + (msg.ServiceName.length + msg.Username.length
          + msg.Address.length + msg.TimeStamp.length))) := by
  rw [Write_block_of_ok msg cipher writer key _ (writeParts_ok msg hs hu ha ht)]
  have hd : desiredSize = 245 := rfl
  simp only [Option.map_some', List.length_append, List.length_replicate,
    serialized_length msg, hd]
  congr 1
  omega

/-- C7 as amended, at the sample record with a 4096-bit key: 245 bytes, not 501. -/
theorem Write_block_length_constant_witness :
    (keyOfBits 4096).Size = 512
      ∧ (sampleMessage.Write sampleCipher sampleWriter (keyOfBits 4096)).block.map List.length
          = some (max 245 (9 + (sampleMessage.ServiceName.length
              + sampleMessage.Username.length + sampleMessage.Address.length
              + sampleMessage.TimeStamp.length))) :=
  ⟨Size_keyOfBits 4096 (by decide),
    Write_block_length_constant sampleMessage sampleCipher sampleWriter (keyOfBits 4096)
      (by decide) (by decide) (by decide) (by decide)⟩

/-- C8: for a message with four non-empty fields, removing the trailing zero bytes from
the block handed to the encryption gives back exactly the serialized record, also when a
field holds zero bytes itself; this holds within the 245-byte budget and beyond it. -/
theorem Write_block_strip_recovers_record (msg : VotifierMessage)
    (cipher : PublicKey → Bytes → Except GoError Bytes) (writer : Bytes → Option GoError)
    (key : PublicKey)
    (hs : msg.ServiceName ≠ []) (hu : msg.Username ≠ []) (ha : msg.Address ≠ [])
    (ht : msg.TimeStamp ≠ []) :
    (msg.Write cipher writer key).block.map stripZeros
      = some (ascii ("VOTE\n") ++ msg.ServiceName ++ [0x0A] ++ msg.Username ++ [0x0A]
          ++ msg.Address ++ [0x0A] ++ msg.TimeStamp ++ [0x0A]) := by
  rw [Write_block_of_ok msg cipher writer key _ (writeParts_ok msg hs hu ha ht)]
  simp only [Option.map_some']
  rw [stripZeros_append_zeros _ _ (serialized_getLast msg)]
  rfl

/-- C8, at a record whose timestamp ends in zero bytes. -/
theorem Write_block_strip_recovers_record_witness :
    ((VotifierMessage.mk (ascii ("s")) (ascii ("u")) (ascii ("a")) [0x74, 0, 0]).Write
        sampleCipher sampleWriter (keyOfBits 2048)).block.map stripZeros
      = some (ascii ("VOTE\n") ++ ascii ("s") ++ [0x0A] ++ ascii ("u") ++ [0x0A]
          ++ ascii ("a") ++ [0x0A] ++ [0x74, 0, 0] ++ [0x0A]) :=
  Write_block_strip_recovers_record
    (VotifierMessage.mk (ascii ("s")) (ascii ("u")) (ascii ("a")) [0x74, 0, 0])
    sampleCipher sampleWriter (keyOfBits 2048)
    (by decide) (by decide) (by decide) (by decide)

/-- C9 fails as stated: a record with only the service name empty and a record with only
the timestamp empty get the same error from `Write`. -/
theorem Write_blank_error_same_for_all_fields :
    ((VotifierMessage.mk [] (ascii ("Steve")) (ascii ("203.0.113.5")) (ascii ("now"))).Write
        sampleCipher sampleWriter (keyOfBits 2048)).err
      = ((VotifierMessage.mk (ascii ("example.com")) (ascii ("Steve")) (ascii ("203.0.113.5"))
          []).Write sampleCipher sampleWriter (keyOfBits 2048)).err := by
  decide

/-- C9 as amended: when a field is empty, the error of `Write` is the fixed message
"invalid write component; is blank", the same whichever field is empty. -/
theorem Write_blank_error_fixed (msg : VotifierMessage)
    (cipher : PublicKey → Bytes → Except GoError Bytes) (writer : Bytes → Option GoError)
    (key : PublicKey)
    (h : msg.ServiceName = [] ∨ msg.Username = [] ∨ msg.Address = [] ∨ msg.TimeStamp = []) :
    (msg.Write cipher writer key).err
      = some (.errorf (ascii ("invalid write component; is blank"))) := by
  rw [Write_of_blank msg cipher writer key h]

/-- C9 as amended, at a record whose user name is empty. -/
theorem Write_blank_error_fixed_witness :
    ((VotifierMessage.mk (ascii ("example.com")) [] (ascii ("203.0.113.5"))
        (ascii ("now"))).Write sampleCipher sampleWriter (keyOfBits 2048)).err
      = some (.errorf (ascii ("invalid write component; is blank"))) :=
  Write_blank_error_fixed _ sampleCipher sampleWriter (keyOfBits 2048) (Or.inr (Or.inl rfl))

end Votifier
